import Mathlib

/-!
Verification of the chunked-document vector index of the llm-researchpaper-analyzer
repository: the word-based chunker (`utils/chunking.py`), the vector store with its
position-to-chunk-id mapping (`embedding_index.py`), the relational paper/chunk
repository (`db_helpers.py`) and the ingestion pipeline (`app.py`).

The embedding is executable: Python strings are Lean `String`s (lists of `Char`),
Python lists are Lean `List`s, SQLite tables are lists of records, and the two
external black boxes (the sentence-transformer model and FAISS inner-product
scores) are parameters (`encode : String → α`, `ip : α → α → Int`).  The
`while` loop of the chunker is embedded with explicit fuel, so that its
non-termination on contract-violating parameters is expressible.
-/

/-! ## Python string primitives -/

/-- ASCII whitespace, as recognised by Python's `str.split()`. -/
def pyWhite (c : Char) : Bool :=
  c = ' ' || c = '\t' || c = '\n' || c = '\r' || c = '\x0b' || c = '\x0c'

/-- Worker for `splitWords`: `acc` holds the (reversed) word currently being read.
Mirrors Python `str.split()`: maximal runs of non-whitespace, empties dropped. -/
def splitWordsAux : List Char → List Char → List (List Char)
  | [], acc => if acc = [] then [] else [acc.reverse]
  | c :: cs, acc =>
    if pyWhite c then
      if acc = [] then splitWordsAux cs []
      else acc.reverse :: splitWordsAux cs []
    else splitWordsAux cs (c :: acc)

/-- Python `text.split()` on a character list. -/
def splitWords (cs : List Char) : List (List Char) :=
  splitWordsAux cs []

/-- Python `" ".join(words)` on character lists. -/
def joinWords : List (List Char) → List Char
  | [] => []
  | w :: ws => w ++ (ws.map (fun v => ' ' :: v)).flatten

/-- Python `text.split()` on a `String`, producing `String` words. -/
def pySplit (s : String) : List String :=
  (splitWords s.data).map String.mk

/-- Effective index of a Python slice endpoint `i` for a sequence of length `n`
(negative indices count from the end, out-of-range clamps). -/
def pyIdx (n : Nat) (i : Int) : Nat :=
  if i < 0 then (i + n).toNat else min i.toNat n

/-- Python slice `xs[a:b]` (without step). -/
def pySlice {α : Type} (xs : List α) (a b : Int) : List α :=
  (xs.take (pyIdx xs.length b)).drop (pyIdx xs.length a)

/-! ## The chunker (`utils/chunking.py`, `chunk_text`)

The `while start < len(words)` loop is embedded with explicit fuel: `none`
means the loop has not finished within `fuel` iterations.  The loop body
computes `end = min(start + max_words, len(words))`, emits
`" ".join(words[start:end])`, stops if `end == len(words)`, and otherwise
continues from `start = end - overlap_words` (the net effect of lines 20–22
of the source, where line 22 overwrites the value computed on line 20). -/

def chunkLoop (words : List (List Char)) (max_words overlap_words : Nat) :
    Nat → Int → List (List Char) → Option (List (List Char))
  | 0, _, _ => none
  | fuel + 1, start, acc =>
    if start < (words.length : Int) then
      let e : Int := min (start + (max_words : Int)) (words.length : Int)
      let acc2 := acc ++ [joinWords (pySlice words start e)]
      if e = (words.length : Int) then some acc2
      else chunkLoop words max_words overlap_words fuel (e - (overlap_words : Int)) acc2
    else some acc

/-- `chunk_text` with explicit loop fuel. -/
def chunk_textF (fuel : Nat) (text : String) (max_words overlap_words : Nat) :
    Option (List String) :=
  if text.data = [] then some []
  else
    let words := splitWords text.data
    if words.length ≤ max_words then some [String.mk (joinWords words)]
    else (chunkLoop words max_words overlap_words fuel 0 []).map (fun cs => cs.map String.mk)

/-- `chunk_text(text, max_words, overlap_words)` from `utils/chunking.py`,
run with enough fuel for every terminating execution of the source
(one word of progress per iteration suffices when `overlap_words < max_words`). -/
def chunk_text (text : String) (max_words overlap_words : Nat) : Option (List String) :=
  chunk_textF ((splitWords text.data).length + 1) text max_words overlap_words

/-! ## Spec-side windowing (from §4.1 of the specification)

`windowStarts` follows the spec's words: successive window starts advancing by
`max_words - overlap_words` until the window `[start, start + max_words)`
reaches the end of the word sequence. -/

/-- Fuel-indexed window starts; `len - start` fuel always suffices when
`overlap_words < max_words`. -/
def windowStartsF : Nat → Nat → Nat → Nat → Nat → List Nat
  | 0, _, _, _, start => [start]
  | fuel + 1, max_words, overlap_words, len, start =>
    if max_words ≤ overlap_words ∨ len ≤ start + max_words then [start]
    else start :: windowStartsF fuel max_words overlap_words len (start + (max_words - overlap_words))

/-- Spec-side sequence of window start indices. -/
def windowStarts (max_words overlap_words len start : Nat) : List Nat :=
  windowStartsF (len - start) max_words overlap_words len start

/-- Concatenation of chunk word-windows with each later chunk's leading
`overlap` words removed (the spec's chunk-coverage round trip). -/
def dropOverlapConcat {α : Type} (overlap : Nat) : List (List α) → List α
  | [] => []
  | w :: ws => w ++ (ws.map (List.drop overlap)).flatten

/-! ## Vector store (`embedding_index.py`, `VectorStore`)

The sentence-transformer model is abstracted as `encode : String → α` applied
text-by-text (the Embedding Gateway contract of §4.2: batched encoding returns
one vector per input text, in order, and L2-normalisation is folded into the
black box).  The FAISS flat index is the list of stored vectors in insertion
order; the SQLite `faiss_mapping` table is an association list
`position → chunk_id`. -/

/-- The FAISS index (vectors in position order) plus the `faiss_mapping` table. -/
structure VectorStore (α : Type) where
  index : List α
  mapping : List (Nat × Nat)
deriving Repr, DecidableEq

/-- The batch slices `texts[i:i+batch_size]` produced by
`range(0, len(texts), batch_size)`; fuel `xs.length` suffices for `bs > 0`. -/
def batchesF {α : Type} : Nat → Nat → List α → List (List α)
  | 0, _, _ => []
  | _, _, [] => []
  | fuel + 1, bs, xs => xs.take bs :: batchesF fuel bs (xs.drop bs)

/-- Batch split of a list, as in the encoding loop of `add_embeddings`. -/
def batches {α : Type} (bs : Nat) (xs : List α) : List (List α) :=
  batchesF xs.length bs xs

/-- The `np.vstack` of the per-batch encodings (rows in input order). -/
def encodeBatched {α : Type} (encode : String → α) (bs : Nat) (texts : List String) : List α :=
  ((batches bs texts).map (List.map encode)).flatten

/-- The `(faiss_idx, chunk_id)` pairs produced by
`for i, cid in enumerate(chunk_ids): pos = start_pos + i`. -/
def posPairs (start : Nat) : List Nat → List (Nat × Nat)
  | [] => []
  | c :: cs => (start, c) :: posPairs (start + 1) cs

/-- Sequential `INSERT INTO faiss_mapping` of the pairs; `none` models the
`IntegrityError` raised if a position (the primary key) is already bound. -/
def bindAll (m : List (Nat × Nat)) : List (Nat × Nat) → Option (List (Nat × Nat))
  | [] => some m
  | p :: rest => if (m.lookup p.1).isSome then none else bindAll (m ++ [p]) rest

/-- `VectorStore.add_embeddings(texts, chunk_ids)`: the length assertion, the
batched encoding, `index.add`, and one mapping insert per chunk id.  `none`
models an exception: a failed assertion, the `np.vstack` of an empty list of
batches, or a duplicate-position insert. -/
def add_embeddings {α : Type} (encode : String → α) (vs : VectorStore α)
    (texts : List String) (chunk_ids : List Nat) : Option (VectorStore α) :=
  if texts.length = chunk_ids.length then
    if texts.length = 0 then none
    else
      match bindAll vs.mapping (posPairs vs.index.length chunk_ids) with
      | none => none
      | some m => some ⟨vs.index ++ encodeBatched encode 64 texts, m⟩
  else none

/-- The scored positions `(ip q v, position)` of every stored vector, the
exhaustive inner-product scoring a FAISS flat index performs. -/
def scorePairsAux {α : Type} (ip : α → α → Int) (q : α) : Nat → List α → List (Int × Int)
  | _, [] => []
  | i, v :: vs => (ip q v, (i : Int)) :: scorePairsAux ip q (i + 1) vs

/-- FAISS result ranking: descending score, ties by ascending position. -/
def scoreOrder (a b : Int × Int) : Prop :=
  b.1 < a.1 ∨ (a.1 = b.1 ∧ a.2 ≤ b.2)

instance scoreOrder.decidable : DecidableRel scoreOrder := fun a b =>
  inferInstanceAs (Decidable (b.1 < a.1 ∨ (a.1 = b.1 ∧ a.2 ≤ b.2)))

/-- The `(score, position)` rows of `index.search(q, top_k)`: all stored
vectors scored and ranked, the top `top_k` kept, padded with index `-1`
entries when fewer than `top_k` vectors are stored. -/
def faissPadded {α : Type} (ip : α → α → Int) (vs : VectorStore α) (q : α) (top_k : Nat) :
    List (Int × Int) :=
  let res := (List.insertionSort scoreOrder (scorePairsAux ip q 0 vs.index)).take top_k
  res ++ List.replicate (top_k - res.length) ((0 : Int), (-1 : Int))

/-- `index.search(q, top_k)` of the FAISS flat inner-product index.
Returns `(D, I)`: the scores and the positions. -/
def faissSearch {α : Type} (ip : α → α → Int) (vs : VectorStore α) (q : α) (top_k : Nat) :
    List Int × List Int :=
  ((faissPadded ip vs q top_k).map Prod.fst, (faissPadded ip vs q top_k).map Prod.snd)

/-- `VectorStore.map_index_to_chunk_ids(indices)`: negative (padding) positions
and positions without a `faiss_mapping` row resolve to `none`. -/
def map_index_to_chunk_ids (m : List (Nat × Nat)) (indices : List Int) : List (Option Nat) :=
  indices.map (fun idx => if idx < 0 then none else m.lookup idx.toNat)

/-! ## Relational store and pipeline (`db_helpers.py`, `app.py`) -/

/-- A row of the `papers` table. -/
structure Paper where
  id : Nat
  title : String
  authors : String
  abstract : String
  file_path : String
  file_hash : String
  summary : Option String
  combined_chunk_summaries : Option String
  gaps : Option String
deriving Repr, DecidableEq

/-- A row of the `chunks` table. -/
structure ChunkRow where
  id : Nat
  paper_id : Nat
  chunk_text : String
  chunk_order : Nat
deriving Repr, DecidableEq

/-- The whole persistent state: both SQLite tables, their autoincrement
counters, and the vector store. -/
structure SysState (α : Type) where
  papers : List Paper
  nextPaperId : Nat
  chunks : List ChunkRow
  nextChunkId : Nat
  vs : VectorStore α
deriving Repr, DecidableEq

/-- The state produced by the fresh-row branch of `PaperDB.insert_paper`:
one new `papers` row carrying the content hash, next id advanced. -/
def insertPaperState {α : Type} (st : SysState α)
    (title authors abstract file_path h : String) : SysState α :=
  { st with
      papers := st.papers ++ [⟨st.nextPaperId, title, authors, abstract, file_path, h, none, none, none⟩],
      nextPaperId := st.nextPaperId + 1 }

/-- `PaperDB.insert_paper`: hash the full text, return the existing row's id
with `already_existed = true` if a row with this `file_hash` exists, otherwise
insert a fresh row.  `hash` abstracts `hashlib.sha256(...).hexdigest()`. -/
def insert_paper {α : Type} (hash : String → String) (st : SysState α)
    (title authors abstract file_path full_text : String) : SysState α × Nat × Bool :=
  match st.papers.find? (fun p => p.file_hash == hash full_text) with
  | some p => (st, p.id, true)
  | none =>
    (insertPaperState st title authors abstract file_path (hash full_text), st.nextPaperId, false)

/-- Worker for `insert_chunks`: one `INSERT INTO chunks` per text, collecting
the assigned `lastrowid`s; `i` is the running `chunk_order`. -/
def insert_chunksAux {α : Type} (paper_id : Nat) (texts : List String) (i : Nat)
    (st : SysState α) : SysState α × List Nat :=
  match texts with
  | [] => (st, [])
  | t :: ts =>
    let cid := st.nextChunkId
    let st2 := { st with
      chunks := st.chunks ++ [⟨cid, paper_id, t, i⟩],
      nextChunkId := cid + 1 }
    let rest := insert_chunksAux paper_id ts (i + 1) st2
    (rest.1, cid :: rest.2)

/-- `PaperDB.insert_chunks(paper_id, chunk_texts)`. -/
def insert_chunks {α : Type} (st : SysState α) (paper_id : Nat) (texts : List String) :
    SysState α × List Nat :=
  insert_chunksAux paper_id texts 0 st

/-- `PaperDB.save_summary_and_gaps`: the SQL `UPDATE papers SET summary=?,
combined_chunk_summaries=?, gaps=? WHERE id=?`. -/
def save_summary_and_gaps {α : Type} (st : SysState α) (paper_id : Nat)
    (final_summary combined_summaries_text gaps_text : String) : SysState α :=
  { st with papers := st.papers.map (fun p =>
      if p.id = paper_id then
        { p with
            summary := some final_summary,
            combined_chunk_summaries := some combined_summaries_text,
            gaps := some gaps_text }
      else p) }

/-- One result row of `PaperDB.semantic_search`. -/
structure SearchResult where
  score : Int
  chunk_id : Nat
  paper_id : Nat
  chunk_text : String
deriving Repr, DecidableEq

/-- The result-building loop of `semantic_search`: skip `None` chunk ids, skip
chunk ids whose `chunks` row is missing, append a result row otherwise. -/
def buildResults (chunks : List ChunkRow) : List (Int × Option Nat) → List SearchResult → List SearchResult
  | [], acc => acc
  | (score, ocid) :: rest, acc =>
    match ocid with
    | none => buildResults chunks rest acc
    | some cid =>
      match chunks.find? (fun c => c.id == cid) with
      | none => buildResults chunks rest acc
      | some r => buildResults chunks rest (acc ++ [⟨score, cid, r.paper_id, r.chunk_text⟩])

/-- `PaperDB.semantic_search(query, top_k)`: encode the query, FAISS search,
resolve positions to chunk ids, and keep the resolvable rows. -/
def semantic_search {α : Type} (encode : String → α) (ip : α → α → Int)
    (st : SysState α) (query : String) (top_k : Nat) : List SearchResult :=
  let DI := faissSearch ip st.vs (encode query) top_k
  let cids := map_index_to_chunk_ids st.vs.mapping DI.2
  buildResults st.chunks (DI.1.zip cids) []

/-- The resolution step applied to one `(score, optional chunk id)` pair of the
search output: `none` exactly when the pair is dropped from the result list. -/
def resolveResult (chunks : List ChunkRow) (sc : Int × Option Nat) : Option SearchResult :=
  sc.2.bind (fun cid =>
    (chunks.find? (fun c => c.id == cid)).map (fun r => ⟨sc.1, cid, r.paper_id, r.chunk_text⟩))

/-- Resolution of one padded FAISS row `(score, position)`: negative padding
positions and unbound positions yield `none`; otherwise the chunk row is
fetched.  `none` exactly when `semantic_search` drops the row. -/
def resolveRow (m : List (Nat × Nat)) (chunks : List ChunkRow) (x : Int × Int) :
    Option SearchResult :=
  resolveResult chunks (x.1, if x.2 < 0 then none else m.lookup x.2.toNat)

/-- The "Start full pipeline" handler of `app.py` (lines 92–132), with the two
language-model calls abstracted (`summarize` for `summarize_chunks_pipeline`,
`analyzeGaps` for `research_gap_analysis`): insert the paper with dedupe; on a
dedupe hit stop (the stored results are displayed); otherwise chunk with
`max_words=400, overlap_words=60`, insert the chunks, index their embeddings
and save the summaries.  Returns the final state, the paper id and the
`already_existed` flag; `none` models an uncaught exception. -/
def ingest {α : Type} (hash : String → String) (encode : String → α)
    (summarize : List String → String × String) (analyzeGaps : String → String)
    (st : SysState α) (title authors abstract file_path full_text : String) :
    Option (SysState α × Nat × Bool) :=
  match insert_paper hash st title authors abstract file_path full_text with
  | (st1, pid, already) =>
    if already then some (st1, pid, true)
    else
      match chunk_text full_text 400 60 with
      | none => none
      | some cs =>
        let ic := insert_chunks st1 pid cs
        match add_embeddings encode ic.1.vs cs ic.2 with
        | none => none
        | some vs2 =>
          let st3 : SysState α := { ic.1 with vs := vs2 }
          let s := summarize cs
          let g := analyzeGaps (s.1 ++ "\n\n" ++ s.2)
          some (save_summary_and_gaps st3 pid s.1 s.2 g, pid, false)

/-- Position-identity alignment invariant (§3 and §8 of the spec): every index
position resolves through the mapping table to a chunk id whose text (under
the ghost assignment `txt` of texts to chunk ids) produced the vector stored
at that position. -/
def Aligned {α : Type} (encode : String → α) (txt : Nat → String) (vs : VectorStore α) : Prop :=
  ∀ p, p < vs.index.length →
    ∃ cid, vs.mapping.lookup p = some cid ∧ vs.index[p]? = some (encode (txt cid))

/-! ## Concrete objects used by the witnesses -/

/-- Ghost text assignment for the C1 witness. -/
def wTxt : Nat → String := fun n => if n = 8 then "y" else if n = 9 then "z" else ""

/-- Concrete two-paper state for the C9 witness. -/
def wSt : SysState Nat :=
  ⟨[⟨1, "t1", "a1", "b1", "p1", "h1", none, none, none⟩,
    ⟨2, "t2", "a2", "b2", "p2", "h2", none, none, none⟩],
    3, [⟨1, 1, "c", 0⟩], 2, ⟨[5], [(0, 1)]⟩⟩

/-- The state after one successful ingestion into the empty store, for the C2
witness (`hash` the identity, `encode` the string length, constant LLM stubs). -/
def wSt1 : SysState Nat :=
  ⟨[⟨1, "t", "a", "ab", "p", "hello world", some "S", some "C", some "G"⟩],
    2, [⟨1, 1, "hello world", 0⟩], 2, ⟨[11], [(0, 1)]⟩⟩

/-- Concrete state with two indexed vectors, both bound, for the C6 witness. -/
def wSt2 : SysState Nat :=
  ⟨[⟨1, "t", "a", "ab", "p", "h", none, none, none⟩], 2,
    [⟨1, 1, "c one", 0⟩, ⟨2, 1, "c two", 1⟩], 3, ⟨[5, 7], [(0, 1), (1, 2)]⟩⟩

/-- Concrete state whose position 0 has lost its mapping entry (the repair
scenario), for the C7 witness. -/
def wSt3 : SysState Nat :=
  ⟨[⟨1, "t", "a", "ab", "p", "h", none, none, none⟩], 2,
    [⟨1, 1, "c one", 0⟩, ⟨2, 1, "c two", 1⟩], 3, ⟨[5, 7], [(1, 2)]⟩⟩

/-! ## Helper lemmas: slices and windows -/

/-- A Python slice with in-range non-negative endpoints is `drop` then `take`. -/
lemma pySlice_natCast {α : Type} (xs : List α) (a b : Nat) (hab : a ≤ b) (hb : b ≤ xs.length) :
    pySlice xs (a : Int) (b : Int) = (xs.drop a).take (b - a) := by
  unfold pySlice pyIdx
  have ha' : ¬ ((a : Int) < 0) := by omega
  have hb' : ¬ ((b : Int) < 0) := by omega
  simp only [if_neg ha', if_neg hb', Int.toNat_natCast]
  rw [min_eq_left hb, min_eq_left (le_trans hab hb)]
  rw [List.take_drop]
  have hba : a + (b - a) = b := by omega
  rw [hba]

/-- Fuel irrelevance for `windowStartsF`, given enough fuel on both sides. -/
lemma windowStartsF_congr (max_words overlap_words : Nat) (hov : overlap_words < max_words) :
    ∀ (f1 f2 len s : Nat), len - s ≤ f1 → len - s ≤ f2 →
      windowStartsF f1 max_words overlap_words len s = windowStartsF f2 max_words overlap_words len s := by
  intro f1
  induction f1 with
  | zero =>
    intro f2 len s h1 _
    cases f2 with
    | zero => rfl
    | succ f2 =>
      have hc : max_words ≤ overlap_words ∨ len ≤ s + max_words := Or.inr (by omega)
      simp [windowStartsF, if_pos hc]
  | succ f1 ih =>
    intro f2 len s h1 h2
    cases f2 with
    | zero =>
      have hc : max_words ≤ overlap_words ∨ len ≤ s + max_words := Or.inr (by omega)
      simp [windowStartsF, if_pos hc]
    | succ f2 =>
      by_cases hc : max_words ≤ overlap_words ∨ len ≤ s + max_words
      · simp [windowStartsF, if_pos hc]
      · have hnB : ¬ len ≤ s + max_words := fun hB => hc (Or.inr hB)
        simp only [windowStartsF, if_neg hc]
        rw [ih f2 len (s + (max_words - overlap_words)) (by omega) (by omega)]

/-- One-step unfolding of `windowStarts` under the caller contract. -/
lemma windowStarts_unfold (max_words overlap_words len s : Nat) (hov : overlap_words < max_words) :
    windowStarts max_words overlap_words len s =
      if len ≤ s + max_words then [s]
      else s :: windowStarts max_words overlap_words len (s + (max_words - overlap_words)) := by
  unfold windowStarts
  by_cases hend : len ≤ s + max_words
  · rw [if_pos hend]
    cases hf : len - s with
    | zero => rfl
    | succ f =>
      have hc : max_words ≤ overlap_words ∨ len ≤ s + max_words := Or.inr hend
      simp [windowStartsF, if_pos hc]
  · rw [if_neg hend]
    push_neg at hend
    have hfs : len - s = (len - s - 1) + 1 := by omega
    rw [hfs]
    have hc : ¬ (max_words ≤ overlap_words ∨ len ≤ s + max_words) := by
      rw [not_or]
      constructor <;> omega
    simp only [windowStartsF, if_neg hc]
    congr 1
    exact windowStartsF_congr max_words overlap_words hov _ _ len _ (by omega) (by omega)

/-- `windowStartsF` never produces an empty list. -/
lemma windowStartsF_ne_nil (f max_words overlap_words len s : Nat) :
    windowStartsF f max_words overlap_words len s ≠ [] := by
  cases f with
  | zero => simp [windowStartsF]
  | succ f =>
    by_cases hc : max_words ≤ overlap_words ∨ len ≤ s + max_words <;>
      simp [windowStartsF, hc]

/-- The chunk loop of the source equals the spec-side windows, given the
caller contract and enough fuel. -/
lemma chunkLoop_eq_windows (words : List (List Char)) (max_words overlap_words : Nat)
    (hov : overlap_words < max_words) :
    ∀ (fuel s : Nat) (acc : List (List Char)), s < words.length → words.length - s < fuel →
      chunkLoop words max_words overlap_words fuel (s : Int) acc
        = some (acc ++ (windowStarts max_words overlap_words words.length s).map
            (fun t => joinWords ((words.drop t).take max_words))) := by
  intro fuel
  induction fuel with
  | zero => intro s acc hs hf; omega
  | succ fuel ih =>
    intro s acc hs hf
    have hguard : (s : Int) < (words.length : Int) := by exact_mod_cast hs
    rw [chunkLoop, if_pos hguard]
    by_cases hend : words.length ≤ s + max_words
    · have he : min ((s : Int) + (max_words : Int)) (words.length : Int) = (words.length : Int) := by
        omega
      rw [windowStarts_unfold _ _ _ _ hov, if_pos hend]
      simp only [he, if_pos rfl]
      have hw : ((words.length : Nat) : Int) = (words.length : Int) := rfl
      have hslice : pySlice words (s : Int) ((words.length : Int))
          = (words.drop s).take (words.length - s) :=
        pySlice_natCast words s words.length (by omega) (by omega)
      have htake : (words.drop s).take (words.length - s) = (words.drop s).take max_words := by
        rw [List.take_of_length_le (by simp), List.take_of_length_le (by simp; omega)]
      simp [hslice, htake]
    · push_neg at hend
      have he : min ((s : Int) + (max_words : Int)) (words.length : Int) = ((s + max_words : Nat) : Int) := by
        push_cast; omega
      have hne : ¬ (((s + max_words : Nat) : Int) = (words.length : Int)) := by
        push_cast; omega
      have hnend : ¬ words.length ≤ s + max_words := by omega
      rw [windowStarts_unfold _ _ _ _ hov, if_neg hnend]
      simp only [he, if_neg hne]
      have hstep : ((s + max_words : Nat) : Int) - (overlap_words : Int)
          = ((s + (max_words - overlap_words) : Nat) : Int) := by push_cast; omega
      rw [hstep]
      rw [ih (s + (max_words - overlap_words))
        (acc ++ [joinWords (pySlice words (s : Int) (((s + max_words : Nat) : Int)))])
        (by omega) (by omega)]
      have hslice : pySlice words (s : Int) ((s + max_words : Nat) : Int)
          = (words.drop s).take max_words := by
        rw [pySlice_natCast words s (s + max_words) (by omega) (by omega)]
        congr 1
        omega
      have hcast : (s : Int) + (max_words : Int) = ((s + max_words : Nat) : Int) := by
        push_cast; ring
      rw [← hcast] at hslice
      simp [hslice]

/-- Structural form of `chunk_text` under the caller contract, in the case
where the word count exceeds `max_words`. -/
lemma chunk_text_eq_windows (text : String) (max_words overlap_words : Nat)
    (hov : overlap_words < max_words)
    (hlen : max_words < (splitWords text.data).length) :
    chunk_text text max_words overlap_words
      = some ((windowStarts max_words overlap_words (splitWords text.data).length 0).map
          (fun s => String.mk (joinWords (((splitWords text.data).drop s).take max_words)))) := by
  have hne : text.data ≠ [] := by
    intro h
    rw [h] at hlen
    simp [splitWords, splitWordsAux] at hlen
  unfold chunk_text chunk_textF
  rw [if_neg hne, if_neg (by omega)]
  have h0 : (0 : Int) = ((0 : Nat) : Int) := rfl
  rw [h0, chunkLoop_eq_windows (splitWords text.data) max_words overlap_words hov
    ((splitWords text.data).length + 1) 0 [] (by omega) (by omega)]
  simp [List.map_map]

/-! ## Helper lemmas: splitting and joining words -/

/-- Every word produced by `splitWordsAux` is nonempty and whitespace-free,
provided the accumulator is whitespace-free. -/
lemma splitWordsAux_good :
    ∀ (cs acc : List Char), (∀ c ∈ acc, pyWhite c = false) →
      ∀ w ∈ splitWordsAux cs acc, w ≠ [] ∧ ∀ c ∈ w, pyWhite c = false := by
  intro cs
  induction cs with
  | nil =>
    intro acc hacc w hw
    by_cases ha : acc = []
    · simp [splitWordsAux, ha] at hw
    · simp only [splitWordsAux, if_neg ha, List.mem_singleton] at hw
      subst hw
      refine ⟨by simpa using ha, ?_⟩
      intro c hc
      exact hacc c (List.mem_reverse.mp hc)
  | cons c cs ih =>
    intro acc hacc w hw
    by_cases hc : pyWhite c
    · by_cases ha : acc = []
      · simp only [splitWordsAux, if_pos hc, if_pos ha] at hw
        exact ih [] (by simp) w hw
      · simp only [splitWordsAux, if_pos hc, if_neg ha, List.mem_cons] at hw
        rcases hw with hw | hw
        · subst hw
          refine ⟨by simpa using ha, ?_⟩
          intro d hd
          exact hacc d (List.mem_reverse.mp hd)
        · exact ih [] (by simp) w hw
    · simp only [splitWordsAux, if_neg hc] at hw
      refine ih (c :: acc) ?_ w hw
      intro d hd
      rcases List.mem_cons.mp hd with rfl | hd
      · simpa using hc
      · exact hacc d hd

/-- Every word of a `splitWords` result is nonempty and whitespace-free. -/
lemma splitWords_good (cs : List Char) :
    ∀ w ∈ splitWords cs, w ≠ [] ∧ ∀ c ∈ w, pyWhite c = false :=
  splitWordsAux_good cs [] (by simp)

/-- Step equation: a whitespace character with a nonempty accumulator emits
the accumulated word. -/
lemma splitWordsAux_cons_white (c : Char) (cs acc : List Char)
    (hc : pyWhite c = true) (ha : acc ≠ []) :
    splitWordsAux (c :: cs) acc = acc.reverse :: splitWordsAux cs [] := by
  simp [splitWordsAux, hc, ha]

/-- Step equation: a whitespace character with an empty accumulator is skipped. -/
lemma splitWordsAux_cons_white_nil (c : Char) (cs : List Char) (hc : pyWhite c = true) :
    splitWordsAux (c :: cs) [] = splitWordsAux cs [] := by
  simp [splitWordsAux, hc]

/-- Step equation: a non-whitespace character extends the accumulator. -/
lemma splitWordsAux_cons_nonwhite (c : Char) (cs acc : List Char) (hc : pyWhite c = false) :
    splitWordsAux (c :: cs) acc = splitWordsAux cs (c :: acc) := by
  simp [splitWordsAux, hc]

/-- Step equation: end of input with a nonempty accumulator emits the word. -/
lemma splitWordsAux_nil (acc : List Char) (ha : acc ≠ []) :
    splitWordsAux [] acc = [acc.reverse] := by
  simp [splitWordsAux, ha]

/-- Reading a whitespace-free prefix just extends the accumulator. -/
lemma splitWordsAux_nonwhite_run :
    ∀ (w cs acc : List Char), (∀ c ∈ w, pyWhite c = false) →
      splitWordsAux (w ++ cs) acc = splitWordsAux cs (w.reverse ++ acc) := by
  intro w
  induction w with
  | nil => intro cs acc _; simp
  | cons c w ih =>
    intro cs acc hw
    have hc : pyWhite c = false := hw c (by simp)
    rw [List.cons_append, splitWordsAux_cons_nonwhite c _ acc hc,
      ih cs (c :: acc) (fun d hd => hw d (List.mem_cons_of_mem c hd))]
    simp

/-- Splitting the space-join of good words recovers exactly the words:
the round trip behind reasoning about chunk texts word-by-word. -/
lemma splitWords_joinWords :
    ∀ ws : List (List Char), (∀ w ∈ ws, w ≠ [] ∧ ∀ c ∈ w, pyWhite c = false) →
      splitWords (joinWords ws) = ws := by
  intro ws
  induction ws with
  | nil => intro _; rfl
  | cons w ws ih =>
    intro h
    obtain ⟨hne, hgood⟩ := h w (by simp)
    have hrev : w.reverse ≠ [] := by simpa using hne
    cases ws with
    | nil =>
      show splitWordsAux (joinWords [w]) [] = [w]
      have hj : joinWords [w] = w ++ [] := by simp [joinWords]
      rw [hj, splitWordsAux_nonwhite_run w [] [] hgood, List.append_nil,
        splitWordsAux_nil w.reverse hrev, List.reverse_reverse]
    | cons v vs =>
      have hjoin : joinWords (w :: v :: vs) = w ++ (' ' :: joinWords (v :: vs)) := by
        simp [joinWords]
      show splitWordsAux (joinWords (w :: v :: vs)) [] = w :: v :: vs
      rw [hjoin, splitWordsAux_nonwhite_run w _ [] hgood, List.append_nil,
        splitWordsAux_cons_white ' ' _ w.reverse (by decide) hrev, List.reverse_reverse]
      exact congrArg (w :: ·) (ih (fun u hu => h u (List.mem_cons_of_mem w hu)))

/-- An all-whitespace character list splits to no words. -/
lemma splitWords_eq_nil_of_white :
    ∀ cs : List Char, (∀ c ∈ cs, pyWhite c = true) → splitWords cs = [] := by
  intro cs
  induction cs with
  | nil => intro _; rfl
  | cons c cs ih =>
    intro h
    show splitWordsAux (c :: cs) [] = []
    rw [splitWordsAux_cons_white_nil c cs (h c (by simp))]
    exact ih (fun d hd => h d (List.mem_cons_of_mem c hd))

/-! ## Helper lemmas: chunk coverage -/

/-- `dropOverlapConcat` commutes with mapping a function over the words. -/
lemma dropOverlapConcat_map {α β : Type} (f : α → β) (overlap : Nat) :
    ∀ l : List (List α),
      dropOverlapConcat overlap (l.map (List.map f)) = (dropOverlapConcat overlap l).map f := by
  intro l
  cases l with
  | nil => rfl
  | cons w ws =>
    simp [dropOverlapConcat, List.map_flatten, List.map_map, Function.comp_def]

/-- Joining the overlap-stripped tails of the windows from `s` yields the
suffix of the word list from `s + overlap`. -/
lemma coverage_aux {α : Type} (words : List α) (max_words overlap_words : Nat)
    (hov : overlap_words < max_words) :
    ∀ (n s : Nat), words.length - s ≤ n →
      ((windowStarts max_words overlap_words words.length s).map
        (fun t => ((words.drop t).take max_words).drop overlap_words)).flatten
        = words.drop (s + overlap_words) := by
  intro n
  induction n with
  | zero =>
    intro s hs
    rw [windowStarts_unfold _ _ _ _ hov, if_pos (by omega)]
    have hlen : ((words.drop s).length ≤ max_words) := by simp; omega
    simp only [List.map_cons, List.map_nil, List.flatten_cons, List.flatten_nil, List.append_nil]
    rw [List.take_of_length_le hlen, List.drop_drop]
  | succ n ih =>
    intro s hs
    by_cases hend : words.length ≤ s + max_words
    · rw [windowStarts_unfold _ _ _ _ hov, if_pos hend]
      have hlen : ((words.drop s).length ≤ max_words) := by simp; omega
      simp only [List.map_cons, List.map_nil, List.flatten_cons, List.flatten_nil, List.append_nil]
      rw [List.take_of_length_le hlen, List.drop_drop]
    · push_neg at hend
      rw [windowStarts_unfold _ _ _ _ hov, if_neg (by omega)]
      simp only [List.map_cons, List.flatten_cons]
      rw [ih (s + (max_words - overlap_words)) (by omega)]
      have h1 : ((words.drop s).take max_words).drop overlap_words
          = ((words.drop (s + overlap_words)).take (max_words - overlap_words)) := by
        rw [List.drop_take, List.drop_drop]
      have h2 : s + (max_words - overlap_words) + overlap_words = s + max_words := by omega
      have h3 : words.drop (s + max_words)
          = (words.drop (s + overlap_words)).drop (max_words - overlap_words) := by
        rw [List.drop_drop]
        congr 1
        omega
      rw [h1, h2, h3, List.take_append_drop]

/-- Full chunk coverage at the window level: stripping each later window's
leading overlap and concatenating reconstructs the whole word list. -/
lemma coverage_core {α : Type} (words : List α) (max_words overlap_words : Nat)
    (hov : overlap_words < max_words) :
    dropOverlapConcat overlap_words
      ((windowStarts max_words overlap_words words.length 0).map
        (fun t => (words.drop t).take max_words)) = words := by
  rw [windowStarts_unfold _ _ _ _ hov]
  by_cases hend : words.length ≤ 0 + max_words
  · rw [if_pos hend]
    simp only [List.map_cons, List.map_nil, dropOverlapConcat]
    simp only [List.map_nil, List.flatten_nil, List.append_nil, List.drop_zero]
    exact List.take_of_length_le (by omega)
  · rw [if_neg hend]
    push_neg at hend
    simp only [List.map_cons, dropOverlapConcat, List.map_map]
    have := coverage_aux words max_words overlap_words hov
      (words.length) (0 + (max_words - overlap_words)) (by omega)
    simp only [Function.comp_def] at this ⊢
    rw [this]
    simp only [List.drop_zero, Nat.zero_add]
    have h2 : max_words - overlap_words + overlap_words = max_words := by omega
    rw [h2, List.take_append_drop]

/-- Every window of the word list consists of good (nonempty, whitespace-free)
words whenever the word list does. -/
lemma window_good (cs : List Char) (s k : Nat) :
    ∀ w ∈ ((splitWords cs).drop s).take k, w ≠ [] ∧ ∀ c ∈ w, pyWhite c = false := by
  intro w hw
  exact splitWords_good cs w (List.mem_of_mem_drop (List.mem_of_mem_take hw))

/-! ## Helper lemmas: mapping table and batched encoding -/

/-- A key at least as large as every key in the table is unbound. -/
lemma lookup_none_of_keys_lt (m : List (Nat × Nat)) (n k : Nat)
    (h : ∀ q ∈ m, q.1 < n) (hk : n ≤ k) : m.lookup k = none := by
  induction m with
  | nil => rfl
  | cons q m ih =>
    have hq : q.1 < n := h q (by simp)
    have hne : (k == q.1) = false := by
      simp only [beq_eq_false_iff_ne, ne_eq]
      omega
    rw [List.lookup_cons, hne]
    exact ih (fun r hr => h r (List.mem_cons_of_mem q hr))

/-- Every key produced by `posPairs start cids` is at least `start`. -/
lemma posPairs_key_ge : ∀ (cids : List Nat) (start : Nat) (q : Nat × Nat),
    q ∈ posPairs start cids → start ≤ q.1 := by
  intro cids
  induction cids with
  | nil => intro start q hq; simp [posPairs] at hq
  | cons c cs ih =>
    intro start q hq
    rcases List.mem_cons.mp hq with rfl | hq
    · simp
    · have := ih (start + 1) q hq
      omega

/-- Looking up position `start + i` in the freshly produced pairs returns the
`i`-th chunk id. -/
lemma posPairs_lookup : ∀ (cids : List Nat) (start i : Nat),
    (posPairs start cids).lookup (start + i) = cids[i]? := by
  intro cids
  induction cids with
  | nil => intro start i; rfl
  | cons c cs ih =>
    intro start i
    cases i with
    | zero => simp [posPairs, List.lookup_cons]
    | succ i =>
      have hne : (start + (i + 1) == start) = false := by
        simp only [beq_eq_false_iff_ne, ne_eq]
        omega
      simp only [posPairs, List.lookup_cons, hne]
      show List.lookup (start + (i + 1)) (posPairs (start + 1) cs) = (c :: cs)[i + 1]?
      have harith : start + (i + 1) = (start + 1) + i := by omega
      rw [harith, ih (start + 1) i]
      simp

/-- Binding all fresh pairs succeeds and appends them to the table. -/
lemma bindAll_posPairs : ∀ (cids : List Nat) (m : List (Nat × Nat)) (start : Nat),
    (∀ q ∈ m, q.1 < start) → bindAll m (posPairs start cids) = some (m ++ posPairs start cids) := by
  intro cids
  induction cids with
  | nil => intro m start _; simp [posPairs, bindAll]
  | cons c cs ih =>
    intro m start h
    simp only [posPairs, bindAll]
    rw [lookup_none_of_keys_lt m start start h (le_refl start)]
    simp only [Option.isSome_none, Bool.false_eq_true, if_false]
    rw [ih (m ++ [(start, c)]) (start + 1) ?_]
    · simp
    · intro q hq
      rcases List.mem_append.mp hq with hq | hq
      · have := h q hq; omega
      · simp at hq
        subst hq
        simp

/-- The batched encoding loop encodes every text once, in order. -/
lemma batchesF_flatten_map {α : Type} (encode : String → α) (bs : Nat) (hbs : 0 < bs) :
    ∀ (fuel : Nat) (xs : List String), xs.length ≤ fuel →
      ((batchesF fuel bs xs).map (List.map encode)).flatten = xs.map encode := by
  intro fuel
  induction fuel with
  | zero =>
    intro xs h
    have : xs = [] := List.length_eq_zero.mp (by omega)
    subst this
    rfl
  | succ fuel ih =>
    intro xs h
    cases xs with
    | nil => rfl
    | cons x xs =>
      simp only [List.length_cons] at h
      simp only [batchesF, List.map_cons, List.flatten_cons]
      rw [ih ((x :: xs).drop bs) (by rw [List.length_drop, List.length_cons]; omega)]
      rw [← List.map_append, List.take_append_drop, List.map_cons]

/-- `encodeBatched` equals plain mapping of the encoder (the contract of §4.2). -/
lemma encodeBatched_eq_map {α : Type} (encode : String → α) (bs : Nat) (hbs : 0 < bs)
    (texts : List String) : encodeBatched encode bs texts = texts.map encode :=
  batchesF_flatten_map encode bs hbs texts.length texts (le_refl _)

/-- A successful lookup exhibits a member of the table. -/
lemma mem_of_lookup_eq_some {m : List (Nat × Nat)} {k v : Nat}
    (h : m.lookup k = some v) : (k, v) ∈ m := by
  induction m with
  | nil => simp [List.lookup] at h
  | cons q m ih =>
    obtain ⟨a, b⟩ := q
    rw [List.lookup_cons] at h
    by_cases hq : (k == a) = true
    · rw [hq] at h
      have hk : k = a := by simpa using hq
      have hv : b = v := Option.some.inj h
      exact List.mem_cons.mpr (Or.inl (by rw [Prod.mk.injEq]; exact ⟨hk, hv.symm⟩))
    · have hq' : (k == a) = false := by simpa using hq
      rw [hq'] at h
      exact List.mem_cons_of_mem _ (ih h)

/-! ## Helper lemmas: search -/

/-- The result loop of `semantic_search` is a `filterMap` by `resolveResult`. -/
lemma buildResults_eq_filterMap (chunks : List ChunkRow) :
    ∀ (l : List (Int × Option Nat)) (acc : List SearchResult),
      buildResults chunks l acc = acc ++ l.filterMap (resolveResult chunks) := by
  intro l
  induction l with
  | nil => intro acc; simp [buildResults]
  | cons sc rest ih =>
    intro acc
    obtain ⟨score, ocid⟩ := sc
    cases ocid with
    | none => simp [buildResults, resolveResult, ih]
    | some cid =>
      cases hfind : chunks.find? (fun c => c.id == cid) with
      | none => simp [buildResults, hfind, resolveResult, ih]
      | some r => simp [buildResults, hfind, resolveResult, ih]

/-- `scorePairsAux` scores every vector: one output pair per vector. -/
lemma scorePairsAux_length {α : Type} (ip : α → α → Int) (q : α) :
    ∀ (l : List α) (i : Nat), (scorePairsAux ip q i l).length = l.length := by
  intro l
  induction l with
  | nil => intro i; rfl
  | cons v vs ih => intro i; simp [scorePairsAux, ih]

/-- Every pair produced by `scorePairsAux ip q i` carries a position in
`[i, i + length)`. -/
lemma scorePairsAux_mem {α : Type} (ip : α → α → Int) (q : α) :
    ∀ (l : List α) (i : Nat) (x : Int × Int), x ∈ scorePairsAux ip q i l →
      ∃ j, j < l.length ∧ x.2 = ((i + j : Nat) : Int) := by
  intro l
  induction l with
  | nil => intro i x hx; simp [scorePairsAux] at hx
  | cons v vs ih =>
    intro i x hx
    rcases List.mem_cons.mp hx with rfl | hx
    · exact ⟨0, by simp, by simp⟩
    · obtain ⟨j, hj, hx2⟩ := ih (i + 1) x hx
      exact ⟨j + 1, by simpa using hj, by rw [hx2]; congr 1; omega⟩

/-- A `filterMap` whose function succeeds on every element keeps the length. -/
lemma length_filterMap_of_isSome {α β : Type} (f : α → Option β) :
    ∀ l : List α, (∀ x ∈ l, (f x).isSome) → (l.filterMap f).length = l.length := by
  intro l
  induction l with
  | nil => intro _; rfl
  | cons x xs ih =>
    intro h
    have hx := h x (by simp)
    cases hfx : f x with
    | none => rw [hfx] at hx; simp at hx
    | some y =>
      rw [List.filterMap_cons, hfx]
      simp only [List.length_cons]
      rw [ih (fun z hz => h z (List.mem_cons_of_mem x hz))]

/-! ## Helper lemmas: repository operations -/

/-- `insert_chunksAux` touches only the `chunks` table and its counter. -/
lemma insert_chunksAux_frame {α : Type} (paper_id : Nat) :
    ∀ (texts : List String) (i : Nat) (st : SysState α),
      (insert_chunksAux paper_id texts i st).1.papers = st.papers
      ∧ (insert_chunksAux paper_id texts i st).1.nextPaperId = st.nextPaperId
      ∧ (insert_chunksAux paper_id texts i st).1.vs = st.vs := by
  intro texts
  induction texts with
  | nil => intro i st; exact ⟨rfl, rfl, rfl⟩
  | cons t ts ih =>
    intro i st
    simp only [insert_chunksAux]
    exact ih (i + 1) _

/-- `save_summary_and_gaps` maps the update function over the `papers` table. -/
lemma save_summary_papers {α : Type} (st : SysState α) (pid : Nat) (s c g : String) :
    (save_summary_and_gaps st pid s c g).papers = st.papers.map (fun p =>
      if p.id = pid then
        { p with summary := some s, combined_chunk_summaries := some c, gaps := some g }
      else p) := rfl

/-- The summary update preserves `id` and `file_hash` of every row. -/
lemma save_update_preserves (pid : Nat) (s c g : String) (p : Paper) :
    ((fun p : Paper =>
      if p.id = pid then
        { p with summary := some s, combined_chunk_summaries := some c, gaps := some g }
      else p) p).id = p.id
    ∧ ((fun p : Paper =>
      if p.id = pid then
        { p with summary := some s, combined_chunk_summaries := some c, gaps := some g }
      else p) p).file_hash = p.file_hash := by
  by_cases hp : p.id = pid <;> simp [hp]

/-! ## Claim theorems: the chunker -/

/-- C3: Chunker windowing rule — for every text whose whitespace-split word
count exceeds `max_words` (under the caller contract
`overlap_words < max_words`), `chunk_text` produces exactly the successive
windows `[start, start + max_words)` of words, advancing `start` by
`max_words - overlap_words` each step until the window reaches the end of the
word sequence, the final window clipped to the remaining words.  The concrete
scenario `chunk_text "a b c d e" 2 1 = ["a b", "b c", "c d", "d e"]` is the
witness below. -/
theorem chunk_text_windowing (text : String) (max_words overlap_words : Nat)
    (hov : overlap_words < max_words)
    (hlen : max_words < (splitWords text.data).length) :
    chunk_text text max_words overlap_words
      = some ((windowStarts max_words overlap_words (splitWords text.data).length 0).map
          (fun s => String.mk (joinWords (((splitWords text.data).drop s).take max_words)))) :=
  chunk_text_eq_windows text max_words overlap_words hov hlen

/-- Witness for C3 at the spec's own scenario. -/
theorem chunk_text_windowing_witness :
    1 < 2 ∧ 2 < (splitWords "a b c d e".data).length
    ∧ chunk_text "a b c d e" 2 1 = some ["a b", "b c", "c d", "d e"] := by
  refine ⟨by decide, by decide, ?_⟩
  have h := chunk_text_windowing "a b c d e" 2 1 (by decide) (by decide)
  rw [h]
  rfl

/-- The loop never terminates on `overlap_words = max_words = 2` with three
words: the window start is stuck at `0`. -/
lemma chunkLoop_stuck : ∀ (fuel : Nat) (acc : List (List Char)),
    chunkLoop [['a'], ['b'], ['c']] 2 2 fuel 0 acc = none := by
  intro fuel
  induction fuel with
  | zero => intro acc; rfl
  | succ fuel ih =>
    intro acc
    rw [chunkLoop]
    norm_num
    exact ih _

/-- C4 (code bug): the spec says a call with `overlap_words ≥ max_words` is a
caller contract violation that fails fast, but the code has no such check:
on `chunk_text("a b c", max_words=2, overlap_words=2)` the loop re-derives
`start = end - overlap_words = 0` forever, so no amount of fuel makes the
embedded loop terminate — the source loops forever instead of raising. -/
theorem chunk_text_overlap_no_failfast :
    ∀ fuel : Nat, chunk_textF fuel "a b c" 2 2 = none := by
  intro fuel
  have hw : splitWords "a b c".data = [['a'], ['b'], ['c']] := by decide
  unfold chunk_textF
  rw [if_neg (by decide)]
  simp only [hw]
  rw [if_neg (by decide), chunkLoop_stuck fuel []]
  rfl

/-- Counterexample to C5 as stated: on the whitespace-only (but nonempty)
input `" "`, `chunk_text` returns the one-element list `[""]`, not the empty
sequence: the `if not text` guard only catches the empty string, and the
`len(words) <= max_words` branch then joins zero words into one empty chunk. -/
theorem chunk_text_whitespace_counterexample :
    chunk_text " " 400 50 = some [""] ∧ chunk_text " " 400 50 ≠ some [] := by
  constructor
  · rfl
  · decide

/-- C5 (amended): an empty input yields the empty chunk sequence, but a
nonempty whitespace-only input yields a single chunk holding the empty
string. -/
theorem chunk_text_whitespace_only (text : String) (max_words overlap_words : Nat)
    (hw : ∀ c ∈ text.data, pyWhite c = true) :
    chunk_text text max_words overlap_words
      = if text.data = [] then some [] else some [""] := by
  by_cases he : text.data = []
  · rw [if_pos he]
    unfold chunk_text chunk_textF
    rw [if_pos he]
  · rw [if_neg he]
    have hsw : splitWords text.data = [] := splitWords_eq_nil_of_white text.data hw
    unfold chunk_text chunk_textF
    rw [if_neg he]
    simp only [hsw, List.length_nil, Nat.zero_le, if_pos]
    rfl

/-- Witness for the amended C5 at the whitespace-only input `" "`. -/
theorem chunk_text_whitespace_only_witness :
    (∀ c ∈ " ".data, pyWhite c = true) ∧ chunk_text " " 400 50 = some [""] := by
  constructor
  · decide
  · have h := chunk_text_whitespace_only " " 400 50 (by decide)
    rw [h]
    decide

/-- C8: Chunk coverage round trip — for every input text and all parameters
with `overlap_words < max_words`, concatenating the word sequences of the
returned chunks after removing each later chunk's first `overlap_words` words
reconstructs exactly the whitespace-split word sequence of the original
text. -/
theorem chunk_text_coverage (text : String) (max_words overlap_words : Nat)
    (hov : overlap_words < max_words) (cs : List String)
    (hcs : chunk_text text max_words overlap_words = some cs) :
    dropOverlapConcat overlap_words (cs.map pySplit) = pySplit text := by
  by_cases he : text.data = []
  · unfold chunk_text chunk_textF at hcs
    rw [if_pos he] at hcs
    have hcs' : cs = [] := by simpa using hcs.symm
    subst hcs'
    simp [dropOverlapConcat, pySplit, he]
    rfl
  · by_cases hle : (splitWords text.data).length ≤ max_words
    · unfold chunk_text chunk_textF at hcs
      rw [if_neg he] at hcs
      simp only [hle, if_pos] at hcs
      have hcs' : cs = [String.mk (joinWords (splitWords text.data))] := by
        simpa using hcs.symm
      subst hcs'
      have hrt : splitWords (joinWords (splitWords text.data)) = splitWords text.data :=
        splitWords_joinWords (splitWords text.data) (splitWords_good text.data)
      simp only [List.map_cons, List.map_nil, dropOverlapConcat, List.flatten_nil,
        List.append_nil, List.map_nil]
      show (splitWords (joinWords (splitWords text.data))).map String.mk = pySplit text
      rw [hrt]
      rfl
    · push_neg at hle
      rw [chunk_text_eq_windows text max_words overlap_words hov hle] at hcs
      have hcs' : cs = (windowStarts max_words overlap_words (splitWords text.data).length 0).map
          (fun s => String.mk (joinWords (((splitWords text.data).drop s).take max_words))) := by
        simpa using hcs.symm
      subst hcs'
      rw [List.map_map]
      have hptw : ∀ s ∈ windowStarts max_words overlap_words (splitWords text.data).length 0,
          (pySplit ∘ fun s => String.mk (joinWords (((splitWords text.data).drop s).take max_words))) s
            = (((splitWords text.data).drop s).take max_words).map String.mk := by
        intro s _
        show (splitWords (joinWords (((splitWords text.data).drop s).take max_words))).map String.mk = _
        rw [splitWords_joinWords _ (window_good text.data s max_words)]
      rw [List.map_congr_left hptw]
      have hmm : (windowStarts max_words overlap_words (splitWords text.data).length 0).map
            (fun s => (((splitWords text.data).drop s).take max_words).map String.mk)
          = ((windowStarts max_words overlap_words (splitWords text.data).length 0).map
            (fun s => ((splitWords text.data).drop s).take max_words)).map (List.map String.mk) := by
        rw [List.map_map]
        simp [Function.comp_def]
      rw [hmm, dropOverlapConcat_map, coverage_core (splitWords text.data) max_words overlap_words hov]
      rfl

/-- Witness for C8 at the concrete scenario. -/
theorem chunk_text_coverage_witness :
    1 < 2 ∧ chunk_text "a b c d e" 2 1 = some ["a b", "b c", "c d", "d e"]
    ∧ dropOverlapConcat 1 ((["a b", "b c", "c d", "d e"] : List String).map pySplit)
        = pySplit "a b c d e" :=
  ⟨by decide, by rfl, chunk_text_coverage "a b c d e" 2 1 (by decide) _ (by rfl)⟩

/-- C10: Chunk size bound — under the caller contract, every returned chunk
splits into at most `max_words` words, and a text with at least one word
yields at least one chunk. -/
theorem chunk_text_size_bound (text : String) (max_words overlap_words : Nat)
    (_hmax : 1 ≤ max_words) (hov : overlap_words < max_words)
    (cs : List String) (hcs : chunk_text text max_words overlap_words = some cs) :
    (∀ c ∈ cs, (pySplit c).length ≤ max_words)
    ∧ (splitWords text.data ≠ [] → cs ≠ []) := by
  by_cases he : text.data = []
  · unfold chunk_text chunk_textF at hcs
    rw [if_pos he] at hcs
    have hcs' : cs = [] := by simpa using hcs.symm
    subst hcs'
    refine ⟨by simp, ?_⟩
    rw [he]
    intro hne
    exact absurd rfl hne
  · by_cases hle : (splitWords text.data).length ≤ max_words
    · unfold chunk_text chunk_textF at hcs
      rw [if_neg he] at hcs
      simp only [hle, if_pos] at hcs
      have hcs' : cs = [String.mk (joinWords (splitWords text.data))] := by
        simpa using hcs.symm
      subst hcs'
      refine ⟨?_, fun _ => by simp⟩
      intro c hc
      have hc' : c = String.mk (joinWords (splitWords text.data)) := by simpa using hc
      subst hc'
      show ((splitWords (joinWords (splitWords text.data))).map String.mk).length ≤ max_words
      rw [splitWords_joinWords _ (splitWords_good text.data)]
      simpa using hle
    · push_neg at hle
      rw [chunk_text_eq_windows text max_words overlap_words hov hle] at hcs
      have hcs' : cs = (windowStarts max_words overlap_words (splitWords text.data).length 0).map
          (fun s => String.mk (joinWords (((splitWords text.data).drop s).take max_words))) := by
        simpa using hcs.symm
      subst hcs'
      constructor
      · intro c hc
        obtain ⟨s, _, hcs⟩ := List.mem_map.mp hc
        subst hcs
        show ((splitWords (joinWords (((splitWords text.data).drop s).take max_words))).map String.mk).length ≤ max_words
        rw [splitWords_joinWords _ (window_good text.data s max_words)]
        simp [List.length_take]
      · intro _
        simp only [ne_eq, List.map_eq_nil_iff]
        exact windowStartsF_ne_nil _ _ _ _ _

/-- Witness for C10 at a concrete input. -/
theorem chunk_text_size_bound_witness :
    1 ≤ 2 ∧ 1 < 2 ∧ chunk_text "a b c" 2 1 = some ["a b", "b c"]
    ∧ (∀ c ∈ (["a b", "b c"] : List String), (pySplit c).length ≤ 2)
    ∧ (splitWords "a b c".data ≠ [] → (["a b", "b c"] : List String) ≠ []) :=
  ⟨by decide, by decide, by rfl,
    (chunk_text_size_bound "a b c" 2 1 (by decide) (by decide) _ (by rfl)).1,
    (chunk_text_size_bound "a b c" 2 1 (by decide) (by decide) _ (by rfl)).2⟩

/-! ## Claim theorems: vector store and repository -/

/-- C1: Position-identity alignment — adding a batch of `n` texts with their
`n` chunk ids appends the vectors at positions `size, …, size + n - 1` in
input order, binds exactly position `size + i` to the `i`-th chunk id, and
preserves the invariant that every position resolves to the chunk id whose
text produced the embedding stored there (`txt` is the ghost assignment of
texts to chunk ids; the batch must be nonempty because `np.vstack` of an
empty batch list raises). -/
theorem add_embeddings_alignment {α : Type} (encode : String → α) (txt : Nat → String)
    (vs : VectorStore α) (texts : List String) (cids : List Nat)
    (hlen : texts.length = cids.length) (hne : texts ≠ [])
    (hkeys : ∀ q ∈ vs.mapping, q.1 < vs.index.length)
    (htxt : ∀ i : Nat, (cids[i]?).map txt = texts[i]?)
    (halign : Aligned encode txt vs) :
    add_embeddings encode vs texts cids
      = some ⟨vs.index ++ texts.map encode, vs.mapping ++ posPairs vs.index.length cids⟩
    ∧ (∀ i : Nat, (vs.mapping ++ posPairs vs.index.length cids).lookup (vs.index.length + i)
        = cids[i]?)
    ∧ Aligned encode txt
        ⟨vs.index ++ texts.map encode, vs.mapping ++ posPairs vs.index.length cids⟩ := by
  have hmap : bindAll vs.mapping (posPairs vs.index.length cids)
      = some (vs.mapping ++ posPairs vs.index.length cids) :=
    bindAll_posPairs cids vs.mapping vs.index.length hkeys
  have henc : encodeBatched encode 64 texts = texts.map encode :=
    encodeBatched_eq_map encode 64 (by norm_num) texts
  have hlook : ∀ i : Nat,
      (vs.mapping ++ posPairs vs.index.length cids).lookup (vs.index.length + i) = cids[i]? := by
    intro i
    rw [List.lookup_append,
      lookup_none_of_keys_lt vs.mapping vs.index.length _ hkeys (by omega),
      posPairs_lookup]
    rfl
  refine ⟨?_, hlook, ?_⟩
  · unfold add_embeddings
    rw [if_pos hlen, if_neg (fun h0 => hne (List.length_eq_zero.mp h0)), hmap, henc]
  · intro p hp
    simp only [List.length_append, List.length_map] at hp
    by_cases hplt : p < vs.index.length
    · obtain ⟨cid, hcid, hvec⟩ := halign p hplt
      refine ⟨cid, ?_, ?_⟩
      · rw [List.lookup_append, hcid]
        rfl
      · show (vs.index ++ texts.map encode)[p]? = _
        rw [List.getElem?_append_left hplt]
        exact hvec
    · push_neg at hplt
      have hip : p = vs.index.length + (p - vs.index.length) := by omega
      have hilt : p - vs.index.length < cids.length := by omega
      refine ⟨cids[p - vs.index.length], ?_, ?_⟩
      · have h2 := hlook (p - vs.index.length)
        rw [← hip] at h2
        show List.lookup p (vs.mapping ++ posPairs vs.index.length cids) = _
        rw [h2]
        exact List.getElem?_eq_getElem hilt
      · show (vs.index ++ texts.map encode)[p]? = _
        rw [List.getElem?_append_right hplt, List.getElem?_map, ← htxt (p - vs.index.length),
          List.getElem?_eq_getElem hilt]
        rfl

/-- Witness for C1: adding two texts to an empty store. -/
theorem add_embeddings_alignment_witness :
    (["y", "z"] : List String).length = ([8, 9] : List Nat).length
    ∧ ((add_embeddings String.length (⟨[], []⟩ : VectorStore Nat) ["y", "z"] [8, 9]
        = some ⟨[] ++ (["y", "z"] : List String).map String.length, [] ++ posPairs 0 [8, 9]⟩)
      ∧ (∀ i : Nat, (([] : List (Nat × Nat)) ++ posPairs 0 [8, 9]).lookup (0 + i)
          = ([8, 9] : List Nat)[i]?)
      ∧ Aligned String.length wTxt
          ⟨[] ++ (["y", "z"] : List String).map String.length, [] ++ posPairs 0 [8, 9]⟩) := by
  constructor
  · rfl
  · exact add_embeddings_alignment String.length wTxt ⟨[], []⟩ ["y", "z"] [8, 9] rfl
      (by decide)
      (by intro q hq; simp at hq)
      (by intro i
          match i with
          | 0 => rfl
          | 1 => rfl
          | n + 2 => rfl)
      (by intro p hp; simp only [List.length_nil] at hp; omega)

/-- C9: Summary attachment frame property — `save_summary_and_gaps` leaves the
chunks table, the chunk id counter and the whole vector store (index contents
and position mapping) untouched, and on the papers table it changes only the
`summary`, `combined_chunk_summaries` and `gaps` fields of the rows with the
given id, leaving every other row and every other field unchanged. -/
theorem save_summary_and_gaps_frame {α : Type} (st : SysState α) (pid : Nat) (s c g : String) :
    (save_summary_and_gaps st pid s c g).chunks = st.chunks
    ∧ (save_summary_and_gaps st pid s c g).nextChunkId = st.nextChunkId
    ∧ (save_summary_and_gaps st pid s c g).vs = st.vs
    ∧ List.Forall₂ (fun p p' : Paper =>
        p'.id = p.id ∧ p'.title = p.title ∧ p'.authors = p.authors
        ∧ p'.abstract = p.abstract ∧ p'.file_path = p.file_path ∧ p'.file_hash = p.file_hash
        ∧ (p.id ≠ pid → p' = p)
        ∧ (p.id = pid → p'.summary = some s ∧ p'.combined_chunk_summaries = some c
            ∧ p'.gaps = some g))
      st.papers (save_summary_and_gaps st pid s c g).papers := by
  refine ⟨rfl, rfl, rfl, ?_⟩
  rw [save_summary_papers]
  induction st.papers with
  | nil => exact List.Forall₂.nil
  | cons p ps ih =>
    rw [List.map_cons]
    refine List.Forall₂.cons ?_ ih
    by_cases hp : p.id = pid
    · simp [hp]
    · simp [hp]

/-- Witness for C9 on a concrete two-paper state. -/
theorem save_summary_and_gaps_frame_witness :
    (save_summary_and_gaps wSt 1 "S" "C" "G").chunks = wSt.chunks
    ∧ (save_summary_and_gaps wSt 1 "S" "C" "G").nextChunkId = wSt.nextChunkId
    ∧ (save_summary_and_gaps wSt 1 "S" "C" "G").vs = wSt.vs
    ∧ List.Forall₂ (fun p p' : Paper =>
        p'.id = p.id ∧ p'.title = p.title ∧ p'.authors = p.authors
        ∧ p'.abstract = p.abstract ∧ p'.file_path = p.file_path ∧ p'.file_hash = p.file_hash
        ∧ (p.id ≠ 1 → p' = p)
        ∧ (p.id = 1 → p'.summary = some "S" ∧ p'.combined_chunk_summaries = some "C"
            ∧ p'.gaps = some "G"))
      wSt.papers (save_summary_and_gaps wSt 1 "S" "C" "G").papers :=
  save_summary_and_gaps_frame wSt 1 "S" "C" "G"

/-- A dedupe hit returns the stored id with `already_existed = true` and
leaves the state untouched. -/
lemma ingest_of_find_some {α : Type} (hash : String → String) (encode : String → α)
    (summarize : List String → String × String) (analyzeGaps : String → String)
    (st : SysState α) (ti au ab fp full : String) (p0 : Paper)
    (hfind : st.papers.find? (fun p => p.file_hash == hash full) = some p0) :
    ingest hash encode summarize analyzeGaps st ti au ab fp full = some (st, p0.id, true) := by
  unfold ingest insert_paper
  rw [hfind]
  rfl

/-- Unfolding of `ingest` on the fresh-document path. -/
lemma ingest_of_find_none {α : Type} (hash : String → String) (encode : String → α)
    (summarize : List String → String × String) (analyzeGaps : String → String)
    (st : SysState α) (ti au ab fp full : String)
    (hfind : st.papers.find? (fun p => p.file_hash == hash full) = none) :
    ingest hash encode summarize analyzeGaps st ti au ab fp full
      = match chunk_text full 400 60 with
        | none => none
        | some cs =>
          match add_embeddings encode
              (insert_chunks (insertPaperState st ti au ab fp (hash full)) st.nextPaperId cs).1.vs cs
              (insert_chunks (insertPaperState st ti au ab fp (hash full)) st.nextPaperId cs).2 with
          | none => none
          | some vs2 =>
            some (save_summary_and_gaps
              { (insert_chunks (insertPaperState st ti au ab fp (hash full)) st.nextPaperId cs).1
                  with vs := vs2 }
              st.nextPaperId (summarize cs).1 (summarize cs).2
              (analyzeGaps ((summarize cs).1 ++ "\n\n" ++ (summarize cs).2)),
              st.nextPaperId, false) := by
  unfold ingest insert_paper
  rw [hfind]
  rfl

/-- C2: Dedupe idempotence — if ingesting a full text returned `(st1, d, e)`,
ingesting the same full text again (with any metadata) returns the same
document id `d` with `already_existed = true` and leaves the state exactly
`st1`: no new document row, no new chunk rows, no change to the vector index
or the mapping. -/
theorem ingest_idempotent {α : Type} (hash : String → String) (encode : String → α)
    (summarize : List String → String × String) (analyzeGaps : String → String)
    (st st1 : SysState α) (t1 a1 b1 q1 t2 a2 b2 q2 full : String) (d : Nat) (e : Bool)
    (h : ingest hash encode summarize analyzeGaps st t1 a1 b1 q1 full = some (st1, d, e)) :
    ingest hash encode summarize analyzeGaps st1 t2 a2 b2 q2 full = some (st1, d, true) := by
  cases hfind : st.papers.find? (fun p => p.file_hash == hash full) with
  | some p0 =>
    rw [ingest_of_find_some hash encode summarize analyzeGaps st t1 a1 b1 q1 full p0 hfind] at h
    simp only [Option.some.injEq, Prod.mk.injEq] at h
    obtain ⟨h1, h2, _⟩ := h
    subst h1
    subst h2
    exact ingest_of_find_some hash encode summarize analyzeGaps st t2 a2 b2 q2 full p0 hfind
  | none =>
    rw [ingest_of_find_none hash encode summarize analyzeGaps st t1 a1 b1 q1 full hfind] at h
    split at h
    · exact Option.noConfusion h
    · next cs hchunk =>
      split at h
      · exact Option.noConfusion h
      · next vs2 hadd =>
        simp only [Option.some.injEq, Prod.mk.injEq] at h
        obtain ⟨h1, h2, _⟩ := h
        subst h2
        have hpap : st1.papers
            = ((st.papers ++ [(⟨st.nextPaperId, t1, a1, b1, q1, hash full, none, none, none⟩ : Paper)]).map
              (fun p : Paper => if p.id = st.nextPaperId then
                { p with
                    summary := some (summarize cs).1,
                    combined_chunk_summaries := some (summarize cs).2,
                    gaps := some (analyzeGaps ((summarize cs).1 ++ "\n\n" ++ (summarize cs).2)) }
                else p)) := by
          rw [← h1, save_summary_papers]
          congr 1
          exact (insert_chunksAux_frame st.nextPaperId cs 0
            (insertPaperState st t1 a1 b1 q1 (hash full))).1
        have hfind1 : st1.papers.find? (fun p => p.file_hash == hash full)
            = some ((fun p : Paper => if p.id = st.nextPaperId then
                { p with
                    summary := some (summarize cs).1,
                    combined_chunk_summaries := some (summarize cs).2,
                    gaps := some (analyzeGaps ((summarize cs).1 ++ "\n\n" ++ (summarize cs).2)) }
                else p) (⟨st.nextPaperId, t1, a1, b1, q1, hash full, none, none, none⟩ : Paper)) := by
          rw [hpap, List.find?_map]
          have hcomp : ((fun p : Paper => p.file_hash == hash full)
              ∘ (fun p : Paper => if p.id = st.nextPaperId then
                { p with
                    summary := some (summarize cs).1,
                    combined_chunk_summaries := some (summarize cs).2,
                    gaps := some (analyzeGaps ((summarize cs).1 ++ "\n\n" ++ (summarize cs).2)) }
                else p))
              = (fun p : Paper => p.file_hash == hash full) := by
            funext p
            simp only [Function.comp_apply]
            by_cases hp : p.id = st.nextPaperId <;> simp [hp]
          rw [hcomp, List.find?_append, hfind]
          rw [List.find?_cons_of_pos _ (by simp)]
          rfl
        rw [ingest_of_find_some hash encode summarize analyzeGaps st1 t2 a2 b2 q2 full _ hfind1]
        simp

/-- Witness for C2: ingesting `"hello world"` twice into the empty store. -/
theorem ingest_idempotent_witness :
    ingest (fun s => s) String.length (fun _ => ("S", "C")) (fun _ => "G")
        ⟨[], 1, [], 1, ⟨[], []⟩⟩ "t" "a" "ab" "p" "hello world" = some (wSt1, 1, false)
    ∧ ingest (fun s => s) String.length (fun _ => ("S", "C")) (fun _ => "G")
        wSt1 "t2" "a2" "ab2" "p2" "hello world" = some (wSt1, 1, true) := by
  constructor
  · rfl
  · exact ingest_idempotent (fun s => s) String.length (fun _ => ("S", "C")) (fun _ => "G")
      ⟨[], 1, [], 1, ⟨[], []⟩⟩ wSt1 "t" "a" "ab" "p" "t2" "a2" "ab2" "p2" "hello world" 1 false rfl

/-- The zipped `(score, resolved chunk id)` rows of `semantic_search` are the
padded FAISS rows with positions resolved through the mapping table. -/
lemma faissSearch_zip_eq {α : Type} (ip : α → α → Int) (vs : VectorStore α)
    (q : α) (top_k : Nat) (m : List (Nat × Nat)) :
    (faissSearch ip vs q top_k).1.zip
      (map_index_to_chunk_ids m (faissSearch ip vs q top_k).2)
    = (faissPadded ip vs q top_k).map
        (fun x : Int × Int => (x.1, if x.2 < 0 then none else m.lookup x.2.toNat)) := by
  unfold faissSearch map_index_to_chunk_ids
  rw [List.map_map, List.zip_map']
  rfl

/-- The loop of `semantic_search` as a `filterMap` over the search rows. -/
lemma semantic_search_eq_filterMap {α : Type} (encode : String → α) (ip : α → α → Int)
    (st : SysState α) (query : String) (top_k : Nat) :
    semantic_search encode ip st query top_k
      = ((faissSearch ip st.vs (encode query) top_k).1.zip
          (map_index_to_chunk_ids st.vs.mapping
            (faissSearch ip st.vs (encode query) top_k).2)).filterMap
          (resolveResult st.chunks) := by
  unfold semantic_search
  rw [buildResults_eq_filterMap]
  rfl

/-- `semantic_search` keeps exactly the resolvable padded FAISS rows. -/
lemma semantic_search_eq_padded {α : Type} (encode : String → α) (ip : α → α → Int)
    (st : SysState α) (query : String) (top_k : Nat) :
    semantic_search encode ip st query top_k
      = (faissPadded ip st.vs (encode query) top_k).filterMap
          (resolveRow st.vs.mapping st.chunks) := by
  rw [semantic_search_eq_filterMap, faissSearch_zip_eq, List.filterMap_map]
  rfl

/-- C6: Search result count — when the index holds fewer vectors than `top_k`
(and the mapping and chunk tables are intact: every position bound, every
bound chunk id present), `semantic_search` returns exactly `index.size`
results; on an empty index it returns the empty list rather than an error. -/
theorem semantic_search_count {α : Type} (encode : String → α) (ip : α → α → Int)
    (st : SysState α) (query : String) (top_k : Nat)
    (htot : ∀ p, p < st.vs.index.length → (st.vs.mapping.lookup p).isSome = true)
    (hex : ∀ q ∈ st.vs.mapping, (st.chunks.find? (fun c => c.id == q.2)).isSome = true) :
    (st.vs.index.length < top_k →
      (semantic_search encode ip st query top_k).length = st.vs.index.length)
    ∧ (st.vs.index.length = 0 → semantic_search encode ip st query top_k = []) := by
  have hss := semantic_search_eq_padded encode ip st query top_k
  have hlen_sorted : (List.insertionSort scoreOrder
      (scorePairsAux ip (encode query) 0 st.vs.index)).length = st.vs.index.length := by
    rw [(List.perm_insertionSort scoreOrder _).length_eq, scorePairsAux_length]
  have hrow_some : ∀ x ∈ (List.insertionSort scoreOrder
      (scorePairsAux ip (encode query) 0 st.vs.index)).take top_k,
      (resolveRow st.vs.mapping st.chunks x).isSome = true := by
    intro x hx
    have hx1 : x ∈ List.insertionSort scoreOrder (scorePairsAux ip (encode query) 0 st.vs.index) :=
      List.take_subset _ _ hx
    have hx2 : x ∈ scorePairsAux ip (encode query) 0 st.vs.index :=
      (List.perm_insertionSort scoreOrder _).mem_iff.mp hx1
    obtain ⟨j, hj, hxj⟩ := scorePairsAux_mem ip (encode query) st.vs.index 0 x hx2
    rw [Nat.zero_add] at hxj
    have hjn : ¬ (x.2 < 0) := by rw [hxj]; omega
    have htn : x.2.toNat = j := by rw [hxj]; exact Int.toNat_natCast j
    obtain ⟨cid, hcid⟩ := Option.isSome_iff_exists.mp (htot j hj)
    obtain ⟨r, hr⟩ := Option.isSome_iff_exists.mp (hex (j, cid) (mem_of_lookup_eq_some hcid))
    unfold resolveRow resolveResult
    rw [if_neg hjn, htn, hcid]
    simp [hr]
  have hrep : ∀ n : Nat, (List.replicate n ((0 : Int), (-1 : Int))).filterMap
      (resolveRow st.vs.mapping st.chunks) = [] := by
    intro n
    rw [List.filterMap_eq_nil_iff]
    intro a ha
    rw [(List.mem_replicate.mp ha).2]
    rfl
  constructor
  · intro htop
    rw [hss]
    unfold faissPadded
    rw [List.filterMap_append, List.length_append,
      length_filterMap_of_isSome _ _ hrow_some, hrep, List.length_take, hlen_sorted]
    simp
    omega
  · intro h0
    rw [hss]
    unfold faissPadded
    have hidx : st.vs.index = [] := List.length_eq_zero.mp h0
    rw [hidx]
    show (([] : List (Int × Int)).take top_k ++ List.replicate (top_k - (([] : List (Int × Int)).take top_k).length) ((0 : Int), (-1 : Int))).filterMap (resolveRow st.vs.mapping st.chunks) = []
    rw [List.take_nil, List.nil_append, List.length_nil, Nat.sub_zero, hrep]

/-- Witness for C6: two indexed vectors, `top_k = 5`, exactly two results;
and the empty-index conjunct holds vacuously on this state. -/
theorem semantic_search_count_witness :
    (∀ p, p < wSt2.vs.index.length → (wSt2.vs.mapping.lookup p).isSome = true)
    ∧ (∀ q ∈ wSt2.vs.mapping, (wSt2.chunks.find? (fun c => c.id == q.2)).isSome = true)
    ∧ ((wSt2.vs.index.length < 5 →
        (semantic_search String.length (fun a b : Nat => (a : Int) * b) wSt2 "qq" 5).length
          = wSt2.vs.index.length)
      ∧ (wSt2.vs.index.length = 0 →
        semantic_search String.length (fun a b : Nat => (a : Int) * b) wSt2 "qq" 5 = []))
    ∧ (semantic_search String.length (fun a b : Nat => (a : Int) * b) wSt2 "qq" 5).length = 2 := by
  refine ⟨by decide, by decide,
    semantic_search_count String.length (fun a b : Nat => (a : Int) * b) wSt2 "qq" 5
      (by decide) (by decide), ?_⟩
  rfl

/-- C7: Absent binding is non-fatal — `semantic_search` equals the `filterMap`
of row resolution over the padded FAISS rows, so a position without a mapping
entry resolves to `none` (a value, not an error) and only that row is dropped
from the returned list, every other row being kept; and any in-range position
whose table lookup is empty indeed resolves to `none`. -/
theorem semantic_search_drops_absent {α : Type} (encode : String → α) (ip : α → α → Int)
    (st : SysState α) (query : String) (top_k : Nat) :
    semantic_search encode ip st query top_k
      = (faissPadded ip st.vs (encode query) top_k).filterMap
          (resolveRow st.vs.mapping st.chunks)
    ∧ (∀ sco pos : Int, 0 ≤ pos → st.vs.mapping.lookup pos.toNat = none →
        resolveRow st.vs.mapping st.chunks (sco, pos) = none) := by
  refine ⟨semantic_search_eq_padded encode ip st query top_k, ?_⟩
  intro sco pos hpos hnone
  unfold resolveRow
  rw [if_neg (by omega), hnone]
  rfl

/-- Witness for C7: position 0 of `wSt3` has no mapping entry; its row is
dropped while the position-1 result is still returned. -/
theorem semantic_search_drops_absent_witness :
    (semantic_search String.length (fun a b : Nat => (a : Int) * b) wSt3 "qq" 5
      = (faissPadded (fun a b : Nat => (a : Int) * b) wSt3.vs (String.length "qq") 5).filterMap
          (resolveRow wSt3.vs.mapping wSt3.chunks)
    ∧ (∀ sco pos : Int, 0 ≤ pos → wSt3.vs.mapping.lookup pos.toNat = none →
        resolveRow wSt3.vs.mapping wSt3.chunks (sco, pos) = none))
    ∧ semantic_search String.length (fun a b : Nat => (a : Int) * b) wSt3 "qq" 5
        = [⟨14, 2, 1, "c two"⟩] :=
  ⟨semantic_search_drops_absent String.length (fun a b : Nat => (a : Int) * b) wSt3 "qq" 5,
    by rfl⟩
